import Mathlib

/-!
Verification of the `NetworkVisualization` component of LinkedBoard Pro
(`src/pages/connection-network-tree/components/NetworkVisualization.jsx`).

The component receives a list of connections as a prop, computes a node
layout (`calculateNodePositions`) keyed by node-id strings, and keeps local
interaction state (zoom, pan, drag flag, drag origin, hovered id).  We embed:

* the data model (`Mutual`, `Connection`),
* the positions map (`NodeMap`, a lookup function mirroring the JS `Map`
  whose only observation in the component is `.get`; `mapSet` is `Map.set`),
* `calculateNodePositions` for the three view modes, with the force-directed
  branch's two `Math.random()` calls per connection drawn from an explicit
  stream `rand : ℕ → ℝ` (call `2*i` is the angle draw of index `i`,
  call `2*i+1` the radius draw),
* the interaction handlers as pure state transformers over `UIState`
  (coordinates as rationals),
* the click handlers and emitted effects of the rendered SVG scene.
-/

namespace NetworkVisualization

/-! ## Definitions -/

/-- A mutual connection object (`mutual.id`, `mutual.name`). -/
structure Mutual where
  id : String
  name : String
deriving DecidableEq

/-- A connection object as consumed by the component: `connection.id`,
`connection.name`, the optional `connection.interactions` count and the
optional `connection.mutualConnections` array (optional because the code
guards it with `?.`). -/
structure Connection where
  id : String
  name : String
  interactions : Option Int
  mutualConnections : Option (List Mutual)
deriving DecidableEq

/-- `connection.mutualConnections?.forEach` iterates nothing when the field
is absent: the effective list of mutuals. -/
def mutualConnectionsOf (c : Connection) : List Mutual :=
  c.mutualConnections.getD []

/-- The key under which a mutual is stored: the template string
`${connection.id}-${mutual.id}`. -/
def mutualKey (c : Connection) (m : Mutual) : String :=
  c.id ++ "-" ++ m.id

/-- A node position (the JS `{x, y}` object), idealised over ℝ. -/
def Pos : Type := ℝ × ℝ

/-- The positions container.  The component only ever observes the JS `Map`
through `.get`, so we model it by its lookup function. -/
def NodeMap : Type := String → Option Pos

/-- `new Map()`. -/
def mapEmpty : NodeMap := fun _ => none

/-- `positions.set(key, value)`: later writes to the same key overwrite
earlier ones. -/
def mapSet (m : NodeMap) (k : String) (v : Pos) : NodeMap :=
  fun q => if q = k then some v else m q

/-- Per-connection step of the `'tree'` branch (`n = connections.length`,
`ic = (index, connection)`): writes the connection's position at radius 150
and every mutual's position at radius 250 around angle
`(index / n) * 2 * π`, with the mutual at sub-index `mIndex` offset by
`(mIndex - 1) * 0.3`. -/
noncomputable def treeStep (n : ℕ) (ps : NodeMap) (ic : ℕ × Connection) : NodeMap :=
  let angle : ℝ := ((ic.1 : ℝ) / (n : ℝ)) * 2 * Real.pi
  let ps1 := mapSet ps ic.2.id
    (400 + Real.cos angle * 150, 300 + Real.sin angle * 150)
  ((mutualConnectionsOf ic.2).enum).foldl (fun ps2 jm =>
    mapSet ps2 (mutualKey ic.2 jm.2)
      (400 + Real.cos (angle + ((jm.1 : ℝ) - 1) * 0.3) * 250,
       300 + Real.sin (angle + ((jm.1 : ℝ) - 1) * 0.3) * 250)) ps1

/-- Per-connection step of the `'circular'` branch: radius 200 at angle
`(index / n) * 2 * π`. -/
noncomputable def circularStep (n : ℕ) (ps : NodeMap) (ic : ℕ × Connection) : NodeMap :=
  let angle : ℝ := ((ic.1 : ℝ) / (n : ℝ)) * 2 * Real.pi
  mapSet ps ic.2.id
    (400 + Real.cos angle * 200, 300 + Real.sin angle * 200)

/-- Per-connection step of the force-directed branch: angle
`Math.random() * 2 * π` and radius `100 + Math.random() * 150`, the two
draws taken from the stream. -/
noncomputable def forceStep (rand : ℕ → ℝ) (ps : NodeMap) (ic : ℕ × Connection) : NodeMap :=
  let angle : ℝ := rand (2 * ic.1) * 2 * Real.pi
  let radius : ℝ := 100 + rand (2 * ic.1 + 1) * 150
  mapSet ps ic.2.id
    (400 + Real.cos angle * radius, 300 + Real.sin angle * radius)

/-- `calculateNodePositions`: seeds the map with the central user node at
`(centerX, centerY) = (400, 300)` and then fills in one entry per connection
(plus, in tree mode, one per mutual) according to the view mode; any view
mode other than `'tree'` and `'circular'` takes the force-directed branch. -/
noncomputable def calculateNodePositions (rand : ℕ → ℝ) (viewMode : String)
    (connections : List Connection) : NodeMap :=
  let positions := mapSet mapEmpty "user" ((400 : ℝ), (300 : ℝ))
  if viewMode = "tree" then
    connections.enum.foldl (treeStep connections.length) positions
  else if viewMode = "circular" then
    connections.enum.foldl (circularStep connections.length) positions
  else
    connections.enum.foldl (forceStep rand) positions

/-- Write a whole list of key/value pairs, left to right. -/
def setList (m : NodeMap) (kvs : List (String × Pos)) : NodeMap :=
  kvs.foldl (fun acc kv => mapSet acc kv.1 kv.2) m

/-- The angle used for the connection at `index` in tree and circular mode,
as the code writes it. -/
noncomputable def slotAngle (n index : ℕ) : ℝ :=
  ((index : ℝ) / (n : ℝ)) * 2 * Real.pi

/-- Position written for the connection at `index` in tree mode. -/
noncomputable def treeConnPos (n index : ℕ) : Pos :=
  (400 + Real.cos (slotAngle n index) * 150, 300 + Real.sin (slotAngle n index) * 150)

/-- Position written for the mutual at sub-index `j` of the connection at
`index` in tree mode. -/
noncomputable def treeMutualPos (n index j : ℕ) : Pos :=
  (400 + Real.cos (slotAngle n index + ((j : ℝ) - 1) * 0.3) * 250,
   300 + Real.sin (slotAngle n index + ((j : ℝ) - 1) * 0.3) * 250)

/-- Position written for the connection at `index` in circular mode. -/
noncomputable def circularConnPos (n index : ℕ) : Pos :=
  (400 + Real.cos (slotAngle n index) * 200, 300 + Real.sin (slotAngle n index) * 200)

/-- The key/value pairs written by `treeStep` for one indexed connection. -/
noncomputable def treeKvs (n : ℕ) (ic : ℕ × Connection) : List (String × Pos) :=
  (ic.2.id, treeConnPos n ic.1) ::
    (mutualConnectionsOf ic.2).enum.map
      (fun jm => (mutualKey ic.2 jm.2, treeMutualPos n ic.1 jm.1))

/-- The keys the tree branch writes for one connection (position-free). -/
def connKeys (c : Connection) : List String :=
  c.id :: (mutualConnectionsOf c).map (fun m => mutualKey c m)

/-- All keys the tree branch writes, in write order. -/
def treeWriteKeys (connections : List Connection) : List String :=
  connections.flatMap connKeys

/-- Position written for the connection at `index` by the force-directed
branch: the angle draw is stream element `2*index`, the radius draw is
stream element `2*index + 1`. -/
noncomputable def forcePos (rand : ℕ → ℝ) (index : ℕ) : Pos :=
  (400 + Real.cos (rand (2 * index) * 2 * Real.pi) * (100 + rand (2 * index + 1) * 150),
   300 + Real.sin (rand (2 * index) * 2 * Real.pi) * (100 + rand (2 * index + 1) * 150))

/-- Modelled from the spec: reference position `(400 + cos(2πi/n)·150,
300 + sin(2πi/n)·150)` for the tree-mode connection at index `i` of `n`. -/
noncomputable def treeConnRef (n i : ℕ) : Pos :=
  (400 + Real.cos (2 * Real.pi * (i : ℝ) / (n : ℝ)) * 150,
   300 + Real.sin (2 * Real.pi * (i : ℝ) / (n : ℝ)) * 150)

/-- Modelled from the spec: reference position at angle
`2πi/n + (j - 1)·0.3`, radius 250, for mutual `j` of tree-mode connection
`i`. -/
noncomputable def treeMutualRef (n i j : ℕ) : Pos :=
  (400 + Real.cos (2 * Real.pi * (i : ℝ) / (n : ℝ) + ((j : ℝ) - 1) * 0.3) * 250,
   300 + Real.sin (2 * Real.pi * (i : ℝ) / (n : ℝ) + ((j : ℝ) - 1) * 0.3) * 250)

/-- Modelled from the spec: reference position at angle `2πi/n`, radius 200,
for the circular-mode connection at index `i` of `n`. -/
noncomputable def circularConnRef (n i : ℕ) : Pos :=
  (400 + Real.cos (2 * Real.pi * (i : ℝ) / (n : ℝ)) * 200,
   300 + Real.sin (2 * Real.pi * (i : ℝ) / (n : ℝ)) * 200)

/-- Sample data for witnesses. -/
def demoMutual : Mutual := ⟨"m", "Mia"⟩

/-- Sample connection with one mutual. -/
def demoConn : Connection := ⟨"a", "Ada Lovelace", some 42, some [demoMutual]⟩

/-- Sample connection without mutuals. -/
def dupConn : Connection := ⟨"a", "Ada", none, none⟩

/-- A connection whose id collides with the central node's key. -/
def userIdConn : Connection := ⟨"user", "Impostor", none, none⟩

/-- The component's local UI state: the five `useState` hooks
(`zoom`, `pan`, `isDragging`, `dragStart`, `hoveredConnection`), with
client coordinates idealised as rationals. -/
structure UIState where
  zoom : ℚ
  pan : ℚ × ℚ
  isDragging : Bool
  dragStart : ℚ × ℚ
  hoveredConnection : Option String
deriving DecidableEq

/-- The `useState` initial values. -/
def initialState : UIState := ⟨1, (0, 0), false, (0, 0), none⟩

/-- `handleMouseDown`: start a drag and record
`dragStart = (clientX - pan.x, clientY - pan.y)`. -/
def handleMouseDown (e : ℚ × ℚ) (s : UIState) : UIState :=
  { s with isDragging := true, dragStart := (e.1 - s.pan.1, e.2 - s.pan.2) }

/-- `handleMouseMove`: while dragging, set
`pan = (clientX - dragStart.x, clientY - dragStart.y)`; otherwise no-op. -/
def handleMouseMove (e : ℚ × ℚ) (s : UIState) : UIState :=
  if s.isDragging then
    { s with pan := (e.1 - s.dragStart.1, e.2 - s.dragStart.2) }
  else s

/-- `handleMouseUp` (also wired to `mouseleave`): stop dragging. -/
def handleMouseUp (s : UIState) : UIState :=
  { s with isDragging := false }

/-- `handleZoom`: `'in'` multiplies by 1.2 capped at 3, anything else
divides by 1.2 floored at 0.3. -/
def handleZoom (direction : String) (s : UIState) : UIState :=
  { s with zoom :=
      if direction = "in" then min (s.zoom * 1.2) 3 else max (s.zoom / 1.2) 0.3 }

/-- `handleConnectionHover`. -/
def handleConnectionHover (connectionId : Option String) (s : UIState) : UIState :=
  { s with hoveredConnection := connectionId }

/-- `resetView`: zoom back to 1 and pan back to the origin. -/
def resetView (s : UIState) : UIState :=
  { s with zoom := 1, pan := (0, 0) }

/-- The mouse events the `useEffect` block subscribes to on the SVG. -/
inductive MouseEvent where
  | mousedown (pos : ℚ × ℚ)
  | mousemove (pos : ℚ × ℚ)
  | mouseup
  | mouseleave
deriving DecidableEq

/-- Event dispatch: `mousedown`/`mousemove` go to their handlers, and both
`mouseup` and `mouseleave` are wired to `handleMouseUp`. -/
def mouseStep (s : UIState) : MouseEvent → UIState
  | MouseEvent.mousedown e => handleMouseDown e s
  | MouseEvent.mousemove e => handleMouseMove e s
  | MouseEvent.mouseup => handleMouseUp s
  | MouseEvent.mouseleave => handleMouseUp s

/-- Recognises the one event kind that can start a drag. -/
def isMouseDownEvent : MouseEvent → Bool
  | MouseEvent.mousedown _ => true
  | _ => false

/-- The payload values `handleNodeClick` is invoked with: the literal
`{id: 'user', name: 'You'}` of the central circle, a connection object, or
a mutual object. -/
inductive SelectedNode where
  | userNode (id name : String)
  | conn (c : Connection)
  | mutualNode (m : Mutual)
deriving DecidableEq

/-- The component's outward effects: the two callbacks plus the
`console.log` of the Export button. -/
inductive Effect where
  | onNodeSelect (node : SelectedNode)
  | onViewModeChange (mode : String)
  | consoleLog (message : String)
deriving DecidableEq

/-- The user interactions the rendered scene offers. -/
inductive UIAction where
  | clickViewMode (mode : String)
  | clickZoomIn
  | clickZoomOut
  | clickReset
  | clickNode (node : SelectedNode)
  | hoverConnection (connectionId : Option String)
  | mouse (ev : MouseEvent)
  | clickExport
deriving DecidableEq

/-- `handleNodeClick(node)` simply forwards to `onNodeSelect(node)`. -/
def handleNodeClick (node : SelectedNode) : List Effect :=
  [Effect.onNodeSelect node]

/-- One interaction: the resulting UI state and the emitted effects,
mirroring the JSX `onClick`/`onMouseEnter`/`onMouseLeave` wiring and the
Export button's `console.log('Export network data')`. -/
def uiStep (s : UIState) : UIAction → UIState × List Effect
  | UIAction.clickViewMode mode => (s, [Effect.onViewModeChange mode])
  | UIAction.clickZoomIn => (handleZoom "in" s, [])
  | UIAction.clickZoomOut => (handleZoom "out" s, [])
  | UIAction.clickReset => (resetView s, [])
  | UIAction.clickNode node => (s, handleNodeClick node)
  | UIAction.hoverConnection cid => (handleConnectionHover cid s, [])
  | UIAction.mouse ev => (mouseStep s ev, [])
  | UIAction.clickExport => (s, [Effect.consoleLog "Export network data"])

/-- The props the verified logic reads (`selectedNode`, `filters` and
`className` are passed through to presentation only). -/
structure Props where
  connections : List Connection
  viewMode : String
deriving DecidableEq

/-- The component: read-only props plus local UI state. -/
structure Component where
  props : Props
  ui : UIState

/-- A full component step: only the UI state evolves, props are data the
parent owns. -/
def compStep (comp : Component) (a : UIAction) : Component × List Effect :=
  let r := uiStep comp.ui a
  (⟨comp.props, r.1⟩, r.2)

/-- Folding a sequence of interactions over the UI state. -/
def uiFold (s : UIState) (actions : List UIAction) : UIState :=
  actions.foldl (fun t a => (uiStep t a).1) s

/-- Each render recomputes `const nodePositions = calculateNodePositions()`;
the closure reads only `viewMode` and `connections` (and, in the force
branch, the random stream), never the interaction state, which is passed
here only to witness that it is not consumed. -/
noncomputable def renderNodePositions (rand : ℕ → ℝ) (props : Props)
    (_ui : UIState) : NodeMap :=
  calculateNodePositions rand props.viewMode props.connections

/-- The payloads of the scene's clickable nodes in render order: the
central circle, then circle and label text of every rendered connection,
then circle and label text of every rendered mutual; an element whose
position lookup fails renders nothing (`if (!position) return null`). -/
def clickTargets (ps : NodeMap) (connections : List Connection) : List SelectedNode :=
  SelectedNode.userNode "user" "You" ::
    (connections.flatMap (fun c =>
      if (ps c.id).isSome then [SelectedNode.conn c, SelectedNode.conn c] else [])
    ++ connections.flatMap (fun c =>
        (mutualConnectionsOf c).flatMap (fun m =>
          if (ps (mutualKey c m)).isSome then
            [SelectedNode.mutualNode m, SelectedNode.mutualNode m] else [])))

/-- `getConnectionStrength`'s three buckets. -/
inductive Strength where
  | strong
  | medium
  | weak
deriving DecidableEq

/-- `getConnectionStrength`: `interactions || 0`, then `> 50` is strong,
`> 20` is medium, anything else weak. -/
def getConnectionStrength (c : Connection) : Strength :=
  let interactions := c.interactions.getD 0
  if interactions > 50 then Strength.strong
  else if interactions > 20 then Strength.medium
  else Strength.weak

/-- The three legend labels rendered under "Connection Strength". -/
def legendLabels : List String :=
  ["Strong (50+ interactions)", "Medium (20-50 interactions)",
   "Weak (<20 interactions)"]

/-- A sample mid-drag state for witnesses. -/
def dragState : UIState := ⟨2, (5, 5), true, (1, 1), some "a"⟩

/-- A sample component for witnesses and counterexamples. -/
def comp0 : Component := ⟨⟨[demoConn], "tree"⟩, initialState⟩

/-! ## Theorems -/

theorem setList_nil (m : NodeMap) : setList m [] = m := rfl

theorem setList_cons (m : NodeMap) (kv : String × Pos) (kvs : List (String × Pos)) :
    setList m (kv :: kvs) = setList (mapSet m kv.1 kv.2) kvs := rfl

theorem setList_append (m : NodeMap) (kvs1 kvs2 : List (String × Pos)) :
    setList m (kvs1 ++ kvs2) = setList (setList m kvs1) kvs2 :=
  List.foldl_append _ _ _ _

theorem mapSet_self (m : NodeMap) (k : String) (v : Pos) : mapSet m k v k = some v := by
  simp [mapSet]

theorem mapSet_other (m : NodeMap) (k q : String) (v : Pos) (h : q ≠ k) :
    mapSet m k v q = m q := by
  simp [mapSet, h]

/-- A key not written by `kvs` keeps its old value. -/
theorem setList_lookup_not_mem (m : NodeMap) (kvs : List (String × Pos)) (k : String)
    (h : k ∉ kvs.map Prod.fst) : setList m kvs k = m k := by
  induction kvs generalizing m with
  | nil => rfl
  | cons kv rest ih =>
    simp only [List.map_cons, List.mem_cons, not_or] at h
    rw [setList_cons, ih _ h.2, mapSet_other _ _ _ _ h.1]

/-- With pairwise distinct keys, a written pair is exactly what lookup finds. -/
theorem setList_lookup_mem_nodup (m : NodeMap) (kvs : List (String × Pos))
    (k : String) (v : Pos) (hnd : (kvs.map Prod.fst).Nodup) (hmem : (k, v) ∈ kvs) :
    setList m kvs k = some v := by
  induction kvs generalizing m with
  | nil => simp at hmem
  | cons kv rest ih =>
    simp only [List.map_cons, List.nodup_cons] at hnd
    rcases List.mem_cons.1 hmem with h | h
    · have hk : k = kv.1 := by rw [← h]
      have : k ∉ rest.map Prod.fst := by rw [hk]; exact hnd.1
      rw [setList_cons, setList_lookup_not_mem _ _ _ this, hk, ← h, mapSet_self]
    · exact (setList_cons _ _ _).symm ▸ ih _ hnd.2 h

/-- A written key always ends up bound (no distinctness needed). -/
theorem setList_lookup_isSome_of_mem (m : NodeMap) (kvs : List (String × Pos))
    (k : String) (hmem : k ∈ kvs.map Prod.fst) : (setList m kvs k).isSome = true := by
  induction kvs generalizing m with
  | nil => simp at hmem
  | cons kv rest ih =>
    rw [setList_cons]
    by_cases hr : k ∈ rest.map Prod.fst
    · exact ih _ hr
    · simp only [List.map_cons, List.mem_cons] at hmem
      have hk : k = kv.1 := hmem.resolve_right hr
      rw [setList_lookup_not_mem _ _ _ hr, hk, mapSet_self]
      rfl

/-- A fold whose step writes a batch of pairs per element is `setList` of the
concatenation of the batches. -/
theorem foldl_setList {α : Type} (f : α → List (String × Pos)) (l : List α) (m : NodeMap) :
    l.foldl (fun ps x => setList ps (f x)) m = setList m (l.flatMap f) := by
  induction l generalizing m with
  | nil => rfl
  | cons a rest ih =>
    rw [List.foldl_cons, ih, List.flatMap_cons, setList_append]

/-- `treeStep` writes exactly its key/value batch. -/
theorem treeStep_eq_setList (n : ℕ) (ps : NodeMap) (ic : ℕ × Connection) :
    treeStep n ps ic = setList ps (treeKvs n ic) := by
  rw [treeKvs, setList_cons]
  simp only [treeStep, treeConnPos, treeMutualPos, slotAngle, setList, List.foldl_map]

/-- `circularStep` writes exactly one pair. -/
theorem circularStep_eq_setList (n : ℕ) (ps : NodeMap) (ic : ℕ × Connection) :
    circularStep n ps ic = setList ps [(ic.2.id, circularConnPos n ic.1)] := by
  simp only [circularStep, circularConnPos, slotAngle, setList, List.foldl_cons,
    List.foldl_nil]

/-- The tree-mode layout as one `setList`. -/
theorem tree_positions_eq (rand : ℕ → ℝ) (connections : List Connection) :
    calculateNodePositions rand "tree" connections =
      setList (mapSet mapEmpty "user" ((400 : ℝ), (300 : ℝ)))
        (connections.enum.flatMap (treeKvs connections.length)) := by
  have h : treeStep connections.length =
      fun ps ic => setList ps (treeKvs connections.length ic) :=
    funext fun ps => funext fun ic => treeStep_eq_setList _ ps ic
  rw [calculateNodePositions, if_pos rfl, h, foldl_setList]

/-- The circular-mode layout as one `setList`. -/
theorem circular_positions_eq (rand : ℕ → ℝ) (connections : List Connection) :
    calculateNodePositions rand "circular" connections =
      setList (mapSet mapEmpty "user" ((400 : ℝ), (300 : ℝ)))
        (connections.enum.flatMap
          (fun ic => [(ic.2.id, circularConnPos connections.length ic.1)])) := by
  have h : circularStep connections.length =
      fun ps ic => setList ps [(ic.2.id, circularConnPos connections.length ic.1)] :=
    funext fun ps => funext fun ic => circularStep_eq_setList _ ps ic
  rw [calculateNodePositions, if_neg (by decide), if_pos rfl, h, foldl_setList]

/-- `forceStep` writes exactly one pair. -/
theorem forceStep_eq_setList (rand : ℕ → ℝ) (ps : NodeMap) (ic : ℕ × Connection) :
    forceStep rand ps ic = setList ps [(ic.2.id, forcePos rand ic.1)] := by
  simp only [forceStep, forcePos, setList, List.foldl_cons, List.foldl_nil]

/-- The force-mode layout as one `setList` (for any view mode that is
neither `'tree'` nor `'circular'`). -/
theorem force_positions_eq (rand : ℕ → ℝ) (viewMode : String)
    (h1 : viewMode ≠ "tree") (h2 : viewMode ≠ "circular") (connections : List Connection) :
    calculateNodePositions rand viewMode connections =
      setList (mapSet mapEmpty "user" ((400 : ℝ), (300 : ℝ)))
        (connections.enum.flatMap (fun ic => [(ic.2.id, forcePos rand ic.1)])) := by
  have h : forceStep rand =
      fun ps ic => setList ps [(ic.2.id, forcePos rand ic.1)] :=
    funext fun ps => funext fun ic => forceStep_eq_setList _ ps ic
  rw [calculateNodePositions, if_neg h1, if_neg h2, h, foldl_setList]

theorem treeKvs_map_fst (n : ℕ) (ic : ℕ × Connection) :
    (treeKvs n ic).map Prod.fst = connKeys ic.2 := by
  simp only [treeKvs, connKeys, List.map_cons, List.map_map]
  congr 1
  have h : (Prod.fst ∘ fun jm : ℕ × Mutual =>
      (mutualKey ic.2 jm.2, treeMutualPos n ic.1 jm.1)) =
      (fun m => mutualKey ic.2 m) ∘ Prod.snd := rfl
  rw [h, ← List.map_map, List.enum_map_snd]

theorem enumFrom_treeKvs_keys (n : ℕ) (cs : List Connection) :
    ∀ k, ((List.enumFrom k cs).flatMap (treeKvs n)).map Prod.fst = treeWriteKeys cs := by
  induction cs with
  | nil => intro k; simp [treeWriteKeys]
  | cons c rest ih =>
    intro k
    rw [treeWriteKeys, List.enumFrom_cons, List.flatMap_cons, List.flatMap_cons,
      List.map_append, treeKvs_map_fst, ih k.succ]
    rfl

/-- The keys of the tree-mode batch list are exactly `treeWriteKeys`. -/
theorem tree_kvs_keys (n : ℕ) (cs : List Connection) :
    ((cs.enum.flatMap (treeKvs n)).map Prod.fst) = treeWriteKeys cs :=
  enumFrom_treeKvs_keys n cs 0

/-- The keys of a one-pair-per-connection batch list are the connection ids
(shared by the circular and force branches). -/
theorem single_kvs_keys (v : ℕ × Connection → Pos) (cs : List Connection) :
    ((cs.enum.flatMap (fun ic => [(ic.2.id, v ic)])).map Prod.fst) =
      cs.map Connection.id := by
  have h : ∀ k, (((List.enumFrom k cs).flatMap (fun ic => [(ic.2.id, v ic)])).map
      Prod.fst) = cs.map Connection.id := by
    induction cs with
    | nil => intro k; simp
    | cons c rest ih =>
      intro k
      rw [List.enumFrom_cons, List.flatMap_cons, List.map_append, ih k.succ]
      rfl
  exact h 0

/-- The plain id list is a sublist of the tree-mode write keys. -/
theorem ids_sublist_treeWriteKeys (cs : List Connection) :
    (cs.map Connection.id).Sublist (treeWriteKeys cs) := by
  induction cs with
  | nil => simp [treeWriteKeys]
  | cons c rest ih =>
    rw [treeWriteKeys, List.flatMap_cons, List.map_cons]
    exact List.Sublist.cons₂ c.id
      (ih.trans (List.sublist_append_right _ _))

/-- A composite mutual key contains a dash, so it is never `"user"`. -/
theorem mutualKey_ne_user (c : Connection) (m : Mutual) : mutualKey c m ≠ "user" := by
  intro h
  have hdash : ('-' : Char) ∈ (mutualKey c m).data := by
    have hm : ('-' : Char) ∈ ("-" : String).data := by decide
    rw [mutualKey, String.data_append, String.data_append]
    exact List.mem_append.2 (Or.inl (List.mem_append.2 (Or.inr hm)))
  rw [h] at hdash
  revert hdash
  decide

/-- If no connection id is `"user"`, the tree branch never writes that key. -/
theorem user_not_mem_treeWriteKeys (cs : List Connection)
    (hid : "user" ∉ cs.map Connection.id) : "user" ∉ treeWriteKeys cs := by
  intro h
  rcases List.mem_flatMap.1 h with ⟨c, hc, hk⟩
  rcases List.mem_cons.1 hk with h1 | h2
  · exact hid (List.mem_map.2 ⟨c, hc, h1.symm⟩)
  · rcases List.mem_map.1 h2 with ⟨m, _, hkey⟩
    exact mutualKey_ne_user c m hkey

/-- The pair `(i, cs[i])` occurs in the enumeration. -/
theorem mem_enum_of_lt {α : Type} (cs : List α) (i : ℕ) (h : i < cs.length) :
    (i, cs[i]) ∈ cs.enum :=
  List.mem_enum_iff_getElem?.2 (List.getElem?_eq_getElem h)

theorem slotAngle_eq (n i : ℕ) : slotAngle n i = 2 * Real.pi * (i : ℝ) / (n : ℝ) := by
  rw [slotAngle]; ring

theorem treeConnPos_eq_ref (n i : ℕ) : treeConnPos n i = treeConnRef n i := by
  rw [treeConnPos, treeConnRef, slotAngle_eq]

theorem treeMutualPos_eq_ref (n i j : ℕ) : treeMutualPos n i j = treeMutualRef n i j := by
  rw [treeMutualPos, treeMutualRef, slotAngle_eq]

theorem circularConnPos_eq_ref (n i : ℕ) : circularConnPos n i = circularConnRef n i := by
  rw [circularConnPos, circularConnRef, slotAngle_eq]

/-- C1: provided the keys the tree branch writes are pairwise distinct (in
particular no two connections share an id), the connection at index `i` of
`n` is laid out at the reference position with radius 150 (tree) resp. 200
(circular) at angle `2πi/n`, and its mutual at sub-index `j` at angle
`2πi/n + (j-1)·0.3` with radius 250, exactly as the spec's closed-form
trigonometric formulas state. -/
theorem tree_circular_layout_matches_reference (rand : ℕ → ℝ)
    (connections : List Connection) (hkeys : (treeWriteKeys connections).Nodup)
    (i : ℕ) (hi : i < connections.length) :
    calculateNodePositions rand "tree" connections connections[i].id
        = some (treeConnRef connections.length i)
    ∧ (∀ (j : ℕ) (hj : j < (mutualConnectionsOf connections[i]).length),
        calculateNodePositions rand "tree" connections
            (mutualKey connections[i] ((mutualConnectionsOf connections[i])[j]))
          = some (treeMutualRef connections.length i j))
    ∧ calculateNodePositions rand "circular" connections connections[i].id
        = some (circularConnRef connections.length i) := by
  have hndtree : ((connections.enum.flatMap (treeKvs connections.length)).map
      Prod.fst).Nodup := by
    rw [tree_kvs_keys]; exact hkeys
  refine ⟨?_, ?_, ?_⟩
  · rw [tree_positions_eq, ← treeConnPos_eq_ref]
    refine setList_lookup_mem_nodup _ _ _ _ hndtree ?_
    exact List.mem_flatMap.2 ⟨(i, connections[i]), mem_enum_of_lt _ _ hi,
      List.mem_cons_self _ _⟩
  · intro j hj
    rw [tree_positions_eq, ← treeMutualPos_eq_ref]
    refine setList_lookup_mem_nodup _ _ _ _ hndtree ?_
    refine List.mem_flatMap.2 ⟨(i, connections[i]), mem_enum_of_lt _ _ hi, ?_⟩
    refine List.mem_cons_of_mem _ (List.mem_map.2 ?_)
    exact ⟨(j, (mutualConnectionsOf connections[i])[j]),
      mem_enum_of_lt _ _ hj, rfl⟩
  · rw [circular_positions_eq, ← circularConnPos_eq_ref]
    have hnd : ((connections.enum.flatMap
        (fun ic => [(ic.2.id, circularConnPos connections.length ic.1)])).map
        Prod.fst).Nodup := by
      rw [single_kvs_keys]
      exact ((ids_sublist_treeWriteKeys connections).nodup hkeys)
    refine setList_lookup_mem_nodup _ _ _ _ hnd ?_
    exact List.mem_flatMap.2 ⟨(i, connections[i]), mem_enum_of_lt _ _ hi,
      List.mem_singleton.2 rfl⟩

/-- C1 counterexample: with the same connection listed twice (a list the
claim quantifies over), the second write overwrites the first, so the
connection at index 0 is not at the claimed reference position. -/
theorem duplicate_connection_overwrites_layout :
    calculateNodePositions (fun _ => 0) "tree" [dupConn, dupConn] dupConn.id
      ≠ some (treeConnRef 2 0) := by
  have hL : calculateNodePositions (fun _ => 0) "tree" [dupConn, dupConn] dupConn.id
      = some (treeConnPos 2 1) := by
    rw [tree_positions_eq]
    simp [dupConn, treeKvs, mutualConnectionsOf, setList, mapSet,
      List.enum_cons, List.enumFrom_cons]
  rw [hL]
  intro h
  have h2 : (treeConnPos 2 1).1 = (treeConnRef 2 0).1 := by
    rw [Option.some.inj h]
  have ha : slotAngle 2 1 = Real.pi := by
    rw [slotAngle]; push_cast; ring
  have hb : 2 * Real.pi * ((0 : ℕ) : ℝ) / ((2 : ℕ) : ℝ) = 0 := by
    push_cast; ring
  rw [treeConnPos, treeConnRef] at h2
  simp only [ha, hb, Real.cos_pi, Real.cos_zero] at h2
  norm_num at h2

/-- C1 witness at a concrete input. -/
theorem tree_circular_layout_matches_reference_witness :
    (treeWriteKeys [demoConn]).Nodup ∧ 0 < [demoConn].length ∧
    calculateNodePositions (fun _ => 0) "tree" [demoConn] (([demoConn])[0].id)
      = some (treeConnRef 1 0) :=
  ⟨by decide, by decide,
    (tree_circular_layout_matches_reference (fun _ => 0) [demoConn]
      (by decide) 0 (by decide)).1⟩

/-- C10 (amended): in every view mode the layout is total — it binds an
entry for every connection's id, on the empty list it consists of the user
entry alone (the division by `connections.length` is never reached), and
provided no connection's id is the string `"user"`, the central key
`"user"` is bound to `(400, 300)`, the same in all view modes. -/
theorem layout_total_and_user_center (rand : ℕ → ℝ) (viewMode : String)
    (connections : List Connection) :
    (∀ c ∈ connections,
      (calculateNodePositions rand viewMode connections c.id).isSome = true)
    ∧ ("user" ∉ connections.map Connection.id →
        calculateNodePositions rand viewMode connections "user"
          = some ((400 : ℝ), (300 : ℝ)))
    ∧ calculateNodePositions rand viewMode []
        = mapSet mapEmpty "user" ((400 : ℝ), (300 : ℝ)) := by
  have hinit : mapSet mapEmpty "user" ((400 : ℝ), (300 : ℝ)) "user"
      = some ((400 : ℝ), (300 : ℝ)) := mapSet_self _ _ _
  refine ⟨?_, ?_, ?_⟩
  · intro c hc
    by_cases h1 : viewMode = "tree"
    · subst h1
      rw [tree_positions_eq]
      refine setList_lookup_isSome_of_mem _ _ _ ?_
      rw [tree_kvs_keys]
      exact List.mem_flatMap.2 ⟨c, hc, List.mem_cons_self _ _⟩
    · by_cases h2 : viewMode = "circular"
      · subst h2
        rw [circular_positions_eq]
        refine setList_lookup_isSome_of_mem _ _ _ ?_
        rw [single_kvs_keys]
        exact List.mem_map.2 ⟨c, hc, rfl⟩
      · rw [force_positions_eq rand viewMode h1 h2]
        refine setList_lookup_isSome_of_mem _ _ _ ?_
        rw [single_kvs_keys]
        exact List.mem_map.2 ⟨c, hc, rfl⟩
  · intro hid
    by_cases h1 : viewMode = "tree"
    · subst h1
      rw [tree_positions_eq, setList_lookup_not_mem, hinit]
      rw [tree_kvs_keys]
      exact user_not_mem_treeWriteKeys _ hid
    · by_cases h2 : viewMode = "circular"
      · subst h2
        rw [circular_positions_eq, setList_lookup_not_mem, hinit]
        rw [single_kvs_keys]
        exact hid
      · rw [force_positions_eq rand viewMode h1 h2, setList_lookup_not_mem, hinit]
        rw [single_kvs_keys]
        exact hid
  · rw [calculateNodePositions]
    split_ifs <;> simp [List.enum_nil]

/-- C10 counterexample: a connection whose id is the string `"user"`
overwrites the central node's entry, so the key `"user"` is no longer at
`(400, 300)`. -/
theorem connection_named_user_displaces_center :
    calculateNodePositions (fun _ => 0) "circular" [userIdConn] "user"
      ≠ some ((400 : ℝ), (300 : ℝ)) := by
  have hL : calculateNodePositions (fun _ => 0) "circular" [userIdConn] "user"
      = some (circularConnPos 1 0) := by
    rw [circular_positions_eq]
    simp [userIdConn, setList, mapSet, List.enum_cons]
  rw [hL]
  intro h
  have h2 : (circularConnPos 1 0).1 = ((400 : ℝ), (300 : ℝ)).1 := by
    rw [Option.some.inj h]
  have ha : slotAngle 1 0 = 0 := by
    rw [slotAngle]; push_cast; ring
  rw [circularConnPos] at h2
  simp only [ha, Real.cos_zero] at h2
  norm_num at h2

/-- C10 witness at a concrete input. -/
theorem layout_total_and_user_center_witness :
    demoConn ∈ [demoConn] ∧ "user" ∉ [demoConn].map Connection.id ∧
    (calculateNodePositions (fun _ => 0) "circular" [demoConn] demoConn.id).isSome
        = true ∧
    calculateNodePositions (fun _ => 0) "circular" [demoConn] "user"
        = some ((400 : ℝ), (300 : ℝ)) :=
  ⟨by decide, by decide,
    (layout_total_and_user_center (fun _ => 0) "circular" [demoConn]).1
      demoConn (by decide),
    (layout_total_and_user_center (fun _ => 0) "circular" [demoConn]).2.1
      (by decide)⟩

/-- C2 counterexample: in the force-directed branch two evaluations with
the same `(viewMode, connections)` input but different `Math.random`
outcomes produce different positions, so the layout is not a deterministic
function of its inputs. -/
theorem force_layout_depends_on_randomness :
    calculateNodePositions (fun _ => 0) "force" [dupConn]
      ≠ calculateNodePositions (fun _ => 1) "force" [dupConn] := by
  intro h
  have h0 : calculateNodePositions (fun _ => 0) "force" [dupConn] dupConn.id
      = some (forcePos (fun _ => 0) 0) := by
    rw [force_positions_eq _ _ (by decide) (by decide)]
    simp [dupConn, setList, mapSet, List.enum_cons]
  have h1 : calculateNodePositions (fun _ => 1) "force" [dupConn] dupConn.id
      = some (forcePos (fun _ => 1) 0) := by
    rw [force_positions_eq _ _ (by decide) (by decide)]
    simp [dupConn, setList, mapSet, List.enum_cons]
  have hx : (forcePos (fun _ => 0) 0).1 = (forcePos (fun _ => 1) 0).1 := by
    have := congrFun h dupConn.id
    rw [h0, h1] at this
    rw [Option.some.inj this]
  rw [forcePos, forcePos] at hx
  simp only [zero_mul, one_mul, mul_zero, Real.cos_zero, Real.cos_two_pi] at hx
  norm_num at hx

/-- C2 (amended): in the `'tree'` and `'circular'` view modes the layout is
a deterministic function of `(viewMode, connections)` — it does not depend
on the random stream; only the force-directed fallback branch consumes
randomness. -/
theorem layout_deterministic_in_tree_and_circular (r1 r2 : ℕ → ℝ)
    (viewMode : String) (connections : List Connection)
    (h : viewMode = "tree" ∨ viewMode = "circular") :
    calculateNodePositions r1 viewMode connections
      = calculateNodePositions r2 viewMode connections := by
  rcases h with h | h <;> subst h
  · rw [tree_positions_eq, tree_positions_eq]
  · rw [circular_positions_eq, circular_positions_eq]

/-- C2 witness at a concrete input. -/
theorem layout_deterministic_in_tree_and_circular_witness :
    ("tree" = "tree" ∨ "tree" = "circular") ∧
    calculateNodePositions (fun _ => 0) "tree" [demoConn]
      = calculateNodePositions (fun _ => 1) "tree" [demoConn] :=
  ⟨Or.inl rfl,
    layout_deterministic_in_tree_and_circular (fun _ => 0) (fun _ => 1)
      "tree" [demoConn] (Or.inl rfl)⟩

/-- C3: the positions map a render computes is independent of the current
interaction state — any two UI states (zoom, pan, drag flag, drag origin,
hovered id) yield identical node positions for the same props and random
stream. -/
theorem positions_independent_of_interaction_state (rand : ℕ → ℝ) (props : Props)
    (z1 z2 : ℚ) (p1 p2 : ℚ × ℚ) (d1 d2 : Bool) (ds1 ds2 : ℚ × ℚ)
    (h1 h2 : Option String) :
    renderNodePositions rand props ⟨z1, p1, d1, ds1, h1⟩
      = renderNodePositions rand props ⟨z2, p2, d2, ds2, h2⟩ := rfl

/-- C4: every clickable node forwards exactly its own object: the payload of
any click target is the central `{id: 'user', name: 'You'}` literal, a
connection from the props list, or a mutual of one of them; conversely every
rendered connection and mutual is clickable with itself as payload, and
`handleNodeClick` emits exactly `onNodeSelect` of its argument. -/
theorem node_clicks_emit_exact_selection (ps : NodeMap) (connections : List Connection) :
    (∀ p ∈ clickTargets ps connections,
      p = SelectedNode.userNode "user" "You"
      ∨ (∃ c, c ∈ connections ∧ p = SelectedNode.conn c)
      ∨ (∃ c m, c ∈ connections ∧ m ∈ mutualConnectionsOf c
          ∧ p = SelectedNode.mutualNode m))
    ∧ SelectedNode.userNode "user" "You" ∈ clickTargets ps connections
    ∧ (∀ c ∈ connections, (ps c.id).isSome = true →
        SelectedNode.conn c ∈ clickTargets ps connections)
    ∧ (∀ c ∈ connections, ∀ m ∈ mutualConnectionsOf c,
        (ps (mutualKey c m)).isSome = true →
        SelectedNode.mutualNode m ∈ clickTargets ps connections)
    ∧ (∀ node : SelectedNode, handleNodeClick node = [Effect.onNodeSelect node]) := by
  refine ⟨?_, List.mem_cons_self _ _, ?_, ?_, fun node => rfl⟩
  · intro p hp
    rcases List.mem_cons.1 hp with h | h
    · exact Or.inl h
    rcases List.mem_append.1 h with h | h
    · rcases List.mem_flatMap.1 h with ⟨c, hc, hpc⟩
      by_cases hb : (ps c.id).isSome = true
      · rw [if_pos hb] at hpc
        have : p = SelectedNode.conn c := by
          rcases List.mem_cons.1 hpc with h1 | h1
          · exact h1
          · exact List.mem_singleton.1 h1
        exact Or.inr (Or.inl ⟨c, hc, this⟩)
      · rw [if_neg hb] at hpc
        simp at hpc
    · rcases List.mem_flatMap.1 h with ⟨c, hc, hpc⟩
      rcases List.mem_flatMap.1 hpc with ⟨m, hm, hpm⟩
      by_cases hb : (ps (mutualKey c m)).isSome = true
      · rw [if_pos hb] at hpm
        have : p = SelectedNode.mutualNode m := by
          rcases List.mem_cons.1 hpm with h1 | h1
          · exact h1
          · exact List.mem_singleton.1 h1
        exact Or.inr (Or.inr ⟨c, m, hc, hm, this⟩)
      · rw [if_neg hb] at hpm
        simp at hpm
  · intro c hc hsome
    refine List.mem_cons_of_mem _ (List.mem_append.2 (Or.inl ?_))
    refine List.mem_flatMap.2 ⟨c, hc, ?_⟩
    rw [if_pos hsome]
    exact List.mem_cons_self _ _
  · intro c hc m hm hsome
    refine List.mem_cons_of_mem _ (List.mem_append.2 (Or.inr ?_))
    refine List.mem_flatMap.2 ⟨c, hc, List.mem_flatMap.2 ⟨m, hm, ?_⟩⟩
    rw [if_pos hsome]
    exact List.mem_cons_self _ _

/-- C4 witness at a concrete input. -/
theorem node_clicks_emit_exact_selection_witness :
    demoConn ∈ [demoConn] ∧
    (((fun _ => some ((0, 0) : Pos)) : NodeMap) demoConn.id).isSome = true ∧
    SelectedNode.conn demoConn
      ∈ clickTargets (fun _ => some ((0, 0) : Pos)) [demoConn] :=
  ⟨by decide, rfl,
    (node_clicks_emit_exact_selection (fun _ => some ((0, 0) : Pos))
      [demoConn]).2.2.1 demoConn (by decide) rfl⟩

/-- C5: each handler touches only its own state component: `handleZoom`
only `zoom`; `handleMouseMove` during a drag only `pan` (set to mouse
position minus `dragStart`); `handleConnectionHover` only
`hoveredConnection`; `resetView` only `zoom` (to 1) and `pan` (to the
origin). -/
theorem handlers_frame_conditions (d : String) (e : ℚ × ℚ)
    (cid : Option String) (s : UIState) :
    ((handleZoom d s).pan = s.pan
      ∧ (handleZoom d s).isDragging = s.isDragging
      ∧ (handleZoom d s).dragStart = s.dragStart
      ∧ (handleZoom d s).hoveredConnection = s.hoveredConnection)
    ∧ (s.isDragging = true →
        (handleMouseMove e s).zoom = s.zoom
        ∧ (handleMouseMove e s).isDragging = s.isDragging
        ∧ (handleMouseMove e s).dragStart = s.dragStart
        ∧ (handleMouseMove e s).hoveredConnection = s.hoveredConnection
        ∧ (handleMouseMove e s).pan = (e.1 - s.dragStart.1, e.2 - s.dragStart.2))
    ∧ ((handleConnectionHover cid s).zoom = s.zoom
      ∧ (handleConnectionHover cid s).pan = s.pan
      ∧ (handleConnectionHover cid s).isDragging = s.isDragging
      ∧ (handleConnectionHover cid s).dragStart = s.dragStart)
    ∧ ((resetView s).zoom = 1 ∧ (resetView s).pan = (0, 0)
      ∧ (resetView s).isDragging = s.isDragging
      ∧ (resetView s).dragStart = s.dragStart
      ∧ (resetView s).hoveredConnection = s.hoveredConnection) := by
  refine ⟨⟨rfl, rfl, rfl, rfl⟩, ?_, ⟨rfl, rfl, rfl, rfl⟩, ⟨rfl, rfl, rfl, rfl, rfl⟩⟩
  intro hd
  simp [handleMouseMove, hd]

/-- C5 witness at a concrete input. -/
theorem handlers_frame_conditions_witness :
    dragState.isDragging = true ∧
    (handleMouseMove (3, 4) dragState).pan
      = ((3 : ℚ) - dragState.dragStart.1, (4 : ℚ) - dragState.dragStart.2) :=
  ⟨rfl,
    ((handlers_frame_conditions "in" (3, 4) none dragState).2.1 rfl).2.2.2.2⟩

/-- An event that is not a `mousedown` leaves a non-dragging state entirely
unchanged. -/
theorem mouseStep_no_mousedown_fix (s : UIState) (hs : s.isDragging = false)
    (ev : MouseEvent) (hev : isMouseDownEvent ev = false) : mouseStep s ev = s := by
  cases ev with
  | mousedown e => simp [isMouseDownEvent] at hev
  | mousemove e => simp [mouseStep, handleMouseMove, hs]
  | mouseup => cases s; simp_all [mouseStep, handleMouseUp]
  | mouseleave => cases s; simp_all [mouseStep, handleMouseUp]

/-- A whole mousedown-free event sequence leaves a non-dragging state
unchanged. -/
theorem mouseSeq_no_mousedown (evs : List MouseEvent) :
    ∀ s : UIState, s.isDragging = false →
      (∀ ev ∈ evs, isMouseDownEvent ev = false) → evs.foldl mouseStep s = s := by
  induction evs with
  | nil => intro s _ _; rfl
  | cons ev rest ih =>
    intro s hs hall
    rw [List.foldl_cons,
      mouseStep_no_mousedown_fix s hs ev (hall ev (List.mem_cons_self _ _))]
    exact ih s hs (fun x hx => hall x (List.mem_cons_of_mem _ hx))

/-- C6: pan is drag-gated: a `mousemove` while not dragging leaves pan
unchanged; only a `mousedown` can turn the drag flag on, and it records
`dragStart` as mouse position minus current pan; `mouseup` and `mouseleave`
clear the flag; a mousedown-free event sequence starting not-dragging never
moves pan; and a `mousemove` while dragging sets pan to mouse position
minus `dragStart`. -/
theorem pan_is_drag_gated (s : UIState) (e : ℚ × ℚ) (ev : MouseEvent)
    (evs : List MouseEvent) :
    (s.isDragging = false → (mouseStep s (MouseEvent.mousemove e)).pan = s.pan)
    ∧ (s.isDragging = false → (mouseStep s ev).isDragging = true →
        isMouseDownEvent ev = true)
    ∧ ((mouseStep s (MouseEvent.mousedown e)).isDragging = true
      ∧ (mouseStep s (MouseEvent.mousedown e)).dragStart
          = (e.1 - s.pan.1, e.2 - s.pan.2))
    ∧ ((mouseStep s MouseEvent.mouseup).isDragging = false
      ∧ (mouseStep s MouseEvent.mouseleave).isDragging = false)
    ∧ (s.isDragging = false → (∀ x ∈ evs, isMouseDownEvent x = false) →
        (evs.foldl mouseStep s).pan = s.pan)
    ∧ (s.isDragging = true →
        (mouseStep s (MouseEvent.mousemove e)).pan
          = (e.1 - s.dragStart.1, e.2 - s.dragStart.2)) := by
  refine ⟨?_, ?_, ⟨rfl, rfl⟩, ⟨rfl, rfl⟩, ?_, ?_⟩
  · intro hs
    simp [mouseStep, handleMouseMove, hs]
  · intro hs hdrag
    cases ev with
    | mousedown e2 => rfl
    | mousemove e2 => simp [mouseStep, handleMouseMove, hs] at hdrag
    | mouseup => simp [mouseStep, handleMouseUp] at hdrag
    | mouseleave => simp [mouseStep, handleMouseUp] at hdrag
  · intro hs hall
    rw [mouseSeq_no_mousedown evs s hs hall]
  · intro hs
    simp [mouseStep, handleMouseMove, hs]

/-- C6 witness at a concrete input. -/
theorem pan_is_drag_gated_witness :
    initialState.isDragging = false ∧
    (∀ x ∈ [MouseEvent.mousemove ((1 : ℚ), (2 : ℚ)), MouseEvent.mouseup,
        MouseEvent.mouseleave], isMouseDownEvent x = false) ∧
    ([MouseEvent.mousemove ((1 : ℚ), (2 : ℚ)), MouseEvent.mouseup,
        MouseEvent.mouseleave].foldl mouseStep initialState).pan
      = initialState.pan :=
  ⟨rfl, by decide,
    (pan_is_drag_gated initialState (0, 0) MouseEvent.mouseup _).2.2.2.2.1
      rfl (by decide)⟩

/-- C7 counterexample: clicking the Export button runs
`console.log('Export network data')`, an outward effect that is neither an
`onNodeSelect` nor an `onViewModeChange` call. -/
theorem export_click_logs_to_console :
    ¬ (∀ e ∈ (compStep comp0 UIAction.clickExport).2,
        (∃ n, e = Effect.onNodeSelect n) ∨ (∃ m, e = Effect.onViewModeChange m)) := by
  intro h
  have hm : Effect.consoleLog "Export network data"
      ∈ (compStep comp0 UIAction.clickExport).2 := by
    simp [compStep, uiStep]
  rcases h _ hm with ⟨n, hn⟩ | ⟨m, hm2⟩
  · exact Effect.noConfusion hn
  · exact Effect.noConfusion hm2

/-- C7 (amended): the component never mutates its props — every interaction
preserves the `connections` list and the `viewMode` prop, and nothing is
persisted beyond the local UI state; the only outward effects are
`onNodeSelect` calls, `onViewModeChange` calls, and the Export button's
`console.log('Export network data')`. -/
theorem props_readonly_and_effects_enumerated (comp : Component) (a : UIAction) :
    (compStep comp a).1.props.connections = comp.props.connections
    ∧ (compStep comp a).1.props.viewMode = comp.props.viewMode
    ∧ ∀ e ∈ (compStep comp a).2,
        (∃ n, e = Effect.onNodeSelect n)
        ∨ (∃ m, e = Effect.onViewModeChange m)
        ∨ e = Effect.consoleLog "Export network data" := by
  refine ⟨rfl, rfl, ?_⟩
  cases a with
  | clickViewMode mode =>
    intro e he
    simp [compStep, uiStep] at he
    exact Or.inr (Or.inl ⟨mode, he⟩)
  | clickZoomIn => intro e he; simp [compStep, uiStep] at he
  | clickZoomOut => intro e he; simp [compStep, uiStep] at he
  | clickReset => intro e he; simp [compStep, uiStep] at he
  | clickNode node =>
    intro e he
    simp [compStep, uiStep, handleNodeClick] at he
    exact Or.inl ⟨node, he⟩
  | hoverConnection cid => intro e he; simp [compStep, uiStep] at he
  | mouse ev => intro e he; simp [compStep, uiStep] at he
  | clickExport =>
    intro e he
    simp [compStep, uiStep] at he
    exact Or.inr (Or.inr he)

/-- C7 witness at a concrete input. -/
theorem props_readonly_and_effects_enumerated_witness :
    Effect.onNodeSelect (SelectedNode.conn demoConn)
        ∈ (compStep comp0 (UIAction.clickNode (SelectedNode.conn demoConn))).2 ∧
    ((∃ n, Effect.onNodeSelect (SelectedNode.conn demoConn) = Effect.onNodeSelect n)
      ∨ (∃ m, Effect.onNodeSelect (SelectedNode.conn demoConn)
          = Effect.onViewModeChange m)
      ∨ Effect.onNodeSelect (SelectedNode.conn demoConn)
          = Effect.consoleLog "Export network data") :=
  ⟨by decide,
    (props_readonly_and_effects_enumerated comp0
      (UIAction.clickNode (SelectedNode.conn demoConn))).2.2 _ (by decide)⟩

/-- Every interaction leaves the zoom unchanged, rescales it with the
`handleZoom` formulas, or resets it to 1. -/
theorem uiStep_zoom_cases (s : UIState) (a : UIAction) :
    (uiStep s a).1.zoom = s.zoom
    ∨ (uiStep s a).1.zoom = min (s.zoom * 1.2) 3
    ∨ (uiStep s a).1.zoom = max (s.zoom / 1.2) 0.3
    ∨ (uiStep s a).1.zoom = 1 := by
  cases a with
  | clickViewMode mode => exact Or.inl rfl
  | clickZoomIn => exact Or.inr (Or.inl (by simp [uiStep, handleZoom]))
  | clickZoomOut => exact Or.inr (Or.inr (Or.inl (by simp [uiStep, handleZoom])))
  | clickReset => exact Or.inr (Or.inr (Or.inr rfl))
  | clickNode node => exact Or.inl rfl
  | hoverConnection cid => exact Or.inl rfl
  | mouse ev =>
    refine Or.inl ?_
    cases ev with
    | mousedown e => rfl
    | mousemove e =>
      simp only [uiStep, mouseStep, handleMouseMove, apply_ite UIState.zoom, ite_self]
    | mouseup => rfl
    | mouseleave => rfl
  | clickExport => exact Or.inl rfl

/-- The zoom bound `[0.3, 3]` is preserved by every interaction step. -/
theorem zoom_invariant_aux (actions : List UIAction) :
    ∀ s : UIState, 0.3 ≤ s.zoom → s.zoom ≤ 3 →
      0.3 ≤ (uiFold s actions).zoom ∧ (uiFold s actions).zoom ≤ 3 := by
  induction actions with
  | nil => intro s h1 h2; exact ⟨h1, h2⟩
  | cons a rest ih =>
    intro s h1 h2
    have hstep : 0.3 ≤ (uiStep s a).1.zoom ∧ (uiStep s a).1.zoom ≤ 3 := by
      rcases uiStep_zoom_cases s a with h | h | h | h <;> rw [h]
      · exact ⟨h1, h2⟩
      · exact ⟨le_min (by linarith) (by norm_num), min_le_right _ _⟩
      · refine ⟨le_max_right _ _, max_le ?_ (by norm_num)⟩
        rw [div_le_iff₀ (by norm_num : (0 : ℚ) < 1.2)]
        linarith
      · norm_num
    simpa [uiFold] using ih ((uiStep s a).1) hstep.1 hstep.2

/-- C8: starting from the initial zoom of 1, after any sequence of
interactions — in particular any sequence of `handleZoom('in')`,
`handleZoom('out')` and `resetView` clicks — the zoom stays within
`[0.3, 3]`; the three operations compute `min(zoom*1.2, 3)`,
`max(zoom/1.2, 0.3)` and exactly 1. -/
theorem zoom_stays_in_bounds (actions : List UIAction) (s : UIState) :
    (0.3 ≤ (uiFold initialState actions).zoom
      ∧ (uiFold initialState actions).zoom ≤ 3)
    ∧ (uiStep s UIAction.clickZoomIn).1.zoom = min (s.zoom * 1.2) 3
    ∧ (uiStep s UIAction.clickZoomOut).1.zoom = max (s.zoom / 1.2) 0.3
    ∧ (uiStep s UIAction.clickReset).1.zoom = 1 := by
  refine ⟨zoom_invariant_aux actions initialState (by norm_num [initialState])
    (by norm_num [initialState]), ?_, ?_, rfl⟩
  · simp [uiStep, handleZoom]
  · simp [uiStep, handleZoom]

/-- C9: `getConnectionStrength` is strong iff more than 50 interactions,
medium iff more than 20 and at most 50, weak otherwise; a missing
`interactions` field counts as 0 and is weak; exactly 50 is medium and
exactly 20 is weak — while the rendered legend labels the buckets
`Strong (50+ interactions)`, `Medium (20-50 interactions)` and
`Weak (<20 interactions)`. -/
theorem connection_strength_classification (c : Connection) :
    (getConnectionStrength c = Strength.strong ↔ 50 < c.interactions.getD 0)
    ∧ (getConnectionStrength c = Strength.medium ↔
        20 < c.interactions.getD 0 ∧ c.interactions.getD 0 ≤ 50)
    ∧ (getConnectionStrength c = Strength.weak ↔ c.interactions.getD 0 ≤ 20)
    ∧ (c.interactions = none → getConnectionStrength c = Strength.weak)
    ∧ (c.interactions = some 50 → getConnectionStrength c = Strength.medium)
    ∧ (c.interactions = some 20 → getConnectionStrength c = Strength.weak)
    ∧ legendLabels = ["Strong (50+ interactions)", "Medium (20-50 interactions)",
        "Weak (<20 interactions)"] := by
  have hx : getConnectionStrength c =
      (if c.interactions.getD 0 > 50 then Strength.strong
       else if c.interactions.getD 0 > 20 then Strength.medium
       else Strength.weak) := rfl
  by_cases h1 : 50 < c.interactions.getD 0
  · rw [hx, if_pos h1]
    refine ⟨iff_of_true rfl h1, iff_of_false (by decide) (by omega),
      iff_of_false (by decide) (by omega), ?_, ?_, ?_, rfl⟩
    · intro h; rw [h] at h1; simp at h1
    · intro h; rw [h] at h1; simp at h1
    · intro h; rw [h] at h1; simp at h1
  · by_cases h2 : 20 < c.interactions.getD 0
    · rw [hx, if_neg h1, if_pos h2]
      refine ⟨iff_of_false (by decide) h1, iff_of_true rfl ⟨h2, by omega⟩,
        iff_of_false (by decide) (by omega), ?_, fun _ => rfl, ?_, rfl⟩
      · intro h; rw [h] at h2; simp at h2
      · intro h; rw [h] at h2; simp at h2
    · rw [hx, if_neg h1, if_neg h2]
      refine ⟨iff_of_false (by decide) h1, iff_of_false (by decide) (by omega),
        iff_of_true rfl (by omega), fun _ => rfl, ?_, fun _ => rfl, rfl⟩
      intro h; rw [h] at h2; simp at h2

/-- C9 witness at a concrete input. -/
theorem connection_strength_classification_witness :
    (Connection.mk "c" "Cleo" (some 50) none).interactions = some 50 ∧
    getConnectionStrength (Connection.mk "c" "Cleo" (some 50) none)
      = Strength.medium :=
  ⟨rfl,
    (connection_strength_classification
      (Connection.mk "c" "Cleo" (some 50) none)).2.2.2.2.1 rfl⟩

end NetworkVisualization
